import Mathlib

/-!
Verification of the citifier annotation pipeline (citifier.py).

The program reads a primary document and a corpus of books, tokenizes each
into a lowercase word set, and for every distinct word of the primary
document scans a shuffled copy of the corpus for the first book containing
that word.  Matching words are rewritten in the primary text with sentinel
markers REF<n>REF (n = 1-based index of the cited filename), which a final
global substitution turns into <r>n</r> tags; metadata-driven rendering then
emits an HTML document with a reference list.

Texts are modelled as `List Char`; machine details that the claims depend on
(cp1252 decoding, Python truthiness of lists, str.lower, whole-word
case-insensitive regex substitution, f-string number rendering) are embedded
explicitly below.  Word tokenization (TextBlob) is modelled as splitting
into maximal runs of ASCII alphanumeric characters; the regex substitution
re.sub(\b(word)\b, \1REFnREF, IGNORECASE) is modelled segment-wise: a
maximal word-character run of the current text matches exactly when its
lowercase form equals the lowercase word, in which case the marker is
appended to the run (the loop skips words containing '*' before they reach
the regex).
-/

namespace Citifier

/-- Models Python str.lower for a single character of the cp1252-decoded
alphabet: ASCII uppercase letters are shifted down by 32, everything else is
left unchanged. -/
def pyLowerChar (c : Char) : Char :=
  if 65 ≤ c.toNat ∧ c.toNat ≤ 90 then Char.ofNat (c.toNat + 32) else c

/-- Models str.lower on a decoded text. -/
def pyLower (l : List Char) : List Char := l.map pyLowerChar

/-- ASCII decimal digit test, the model of the regex class \d. -/
def isDigitChar (c : Char) : Bool := decide (48 ≤ c.toNat ∧ c.toNat ≤ 57)

/-- Word characters for tokenization and the \b word-boundary semantics:
ASCII digits and letters. -/
def isWordChar (c : Char) : Bool :=
  decide ((48 ≤ c.toNat ∧ c.toNat ≤ 57) ∨ (65 ≤ c.toNat ∧ c.toNat ≤ 90) ∨
    (97 ≤ c.toNat ∧ c.toNat ≤ 122))

/-- Decimal digit character of a digit value. -/
def digitChar : Nat → Char
  | 0 => '0' | 1 => '1' | 2 => '2' | 3 => '3' | 4 => '4'
  | 5 => '5' | 6 => '6' | 7 => '7' | 8 => '8' | _ => '9'

/-- Decimal digit expansion, fuel-driven so that it reduces by evaluation. -/
def natDigitsAux : Nat → Nat → List Char
  | 0, _ => []
  | fuel + 1, n => if n < 10 then [digitChar n] else natDigitsAux fuel (n / 10) ++ [digitChar (n % 10)]

/-- Decimal digits of a number, as written by a Python f-string. -/
def natDigits (n : Nat) : List Char := natDigitsAux (n + 1) n

/-- Decimal rendering of a number as a string. -/
def natStr (n : Nat) : String := String.mk (natDigits n)

/-- The cp1252 codepoint for the bytes 0x80-0x9F; the five undefined slots
0x81, 0x8D, 0x8F, 0x90, 0x9D decode to nothing (UnicodeDecodeError). -/
def cp1252Table : Nat → Option Nat
  | 0x80 => some 0x20AC | 0x81 => none      | 0x82 => some 0x201A | 0x83 => some 0x0192
  | 0x84 => some 0x201E | 0x85 => some 0x2026 | 0x86 => some 0x2020 | 0x87 => some 0x2021
  | 0x88 => some 0x02C6 | 0x89 => some 0x2030 | 0x8A => some 0x0160 | 0x8B => some 0x2039
  | 0x8C => some 0x0152 | 0x8D => none      | 0x8E => some 0x017D | 0x8F => none
  | 0x90 => none        | 0x91 => some 0x2018 | 0x92 => some 0x2019 | 0x93 => some 0x201C
  | 0x94 => some 0x201D | 0x95 => some 0x2022 | 0x96 => some 0x2013 | 0x97 => some 0x2014
  | 0x98 => some 0x02DC | 0x99 => some 0x2122 | 0x9A => some 0x0161 | 0x9B => some 0x203A
  | 0x9C => some 0x0153 | 0x9D => none      | 0x9E => some 0x017E | _ => none

/-- Decoding of one byte under codecs cp1252: bytes below 0x80 and from
0xA0 to 0xFF map to the same codepoint, 0x80-0x9F go through the table. -/
def cp1252Byte (b : Nat) : Option Char :=
  if b < 0x80 ∨ (0xA0 ≤ b ∧ b ≤ 0xFF) then some (Char.ofNat b)
  else if b ≤ 0x9F then (cp1252Table b).map Char.ofNat
  else none

/-- Decoding a whole byte sequence; any undecodable byte fails the whole
read, as codecs.open(...).read() raises UnicodeDecodeError. -/
def cp1252Decode (bs : List Nat) : Option (List Char) := bs.mapM cp1252Byte

/-- A maximal-run segment of the primary text: a word-character run together
with the citation markers appended after it so far, or a separator run.
The initial text has no markers; re.sub appends REF<n>REF after a matched
word run, which is recorded by appending n to the run's marker list. -/
inductive Seg where
  | word : List Char → List Nat → Seg
  | sep : List Char → Seg
deriving DecidableEq, Repr

/-- Builds a segment from a finished character run. -/
def mkSeg (isw : Bool) (run : List Char) : Seg :=
  if isw then Seg.word run [] else Seg.sep run

/-- Splits text into alternating maximal runs; run is the current run in
reverse, isw whether it is a word run. -/
def toSegsAux (isw : Bool) (run : List Char) : List Char → List Seg
  | [] => [mkSeg isw run.reverse]
  | c :: cs =>
    if isWordChar c = isw then toSegsAux isw (c :: run) cs
    else mkSeg isw run.reverse :: toSegsAux (isWordChar c) [c] cs

/-- Splits a text into its maximal word-character and separator runs. -/
def toSegs : List Char → List Seg
  | [] => []
  | c :: cs => toSegsAux (isWordChar c) [c] cs

/-- The word run of a segment, if any. -/
def wordOf : Seg → Option (List Char)
  | Seg.word s _ => some s
  | Seg.sep _ => none

/-- Word tokens of a segment list. -/
def tokens (segs : List Seg) : List (List Char) := segs.filterMap wordOf

/-- Models the TextBlob word tokenization of a text: its maximal
word-character runs. -/
def tokenize (l : List Char) : List (List Char) := tokens (toSegs l)

/-- The sentinel marker text REF<n>REF inserted by the per-word re.sub. -/
def renderMarker (n : Nat) : List Char :=
  'R' :: 'E' :: 'F' :: (natDigits n ++ ['R', 'E', 'F'])

/-- The text a segment stands for: the run followed by its markers. -/
def renderSeg : Seg → List Char
  | Seg.word s ms => s ++ (ms.map renderMarker).flatten
  | Seg.sep s => s

/-- The current primary text as a character list. -/
def renderSegs (segs : List Seg) : List Char := (segs.map renderSeg).flatten

/-- Marker list of one segment. -/
def segMarkers : Seg → List Nat
  | Seg.word _ ms => ms
  | Seg.sep _ => []

/-- All citation numbers inserted in the text so far. -/
def textMarkers (segs : List Seg) : List Nat := (segs.map segMarkers).flatten

/-- A loaded document: full path, base filename and lowercase token set
(Book.__init__). -/
structure Book where
  fullpath : String
  filename : String
  set : List (List Char)
deriving DecidableEq, Repr

/-- Scan for os.path.split: the run of characters after the last '/'. -/
def basenameAux : List Char → List Char → List Char
  | [], acc => acc.reverse
  | c :: cs, acc => if c = '/' then basenameAux cs [] else basenameAux cs (c :: acc)

/-- Models os.path.split's tail component. -/
def basename (p : String) : String := String.mk (basenameAux p.data [])

/-- Book construction from a file's raw bytes: decode under cp1252, on
UnicodeDecodeError fall back to the empty text, then take the set of
lowercased word tokens (TextBlob(text).words.lower()).  The set is modelled
as a duplicate-free list; only membership is ever used. -/
def mkBook (path : String) (bytes : List Nat) : Book :=
  let text := match cp1252Decode bytes with
    | some cs => cs
    | none => []
  { fullpath := path, filename := basename path,
    set := ((tokenize text).map pyLower).dedup }

/-- load_cache: returns the pickled content when the cache file exists,
None otherwise.  The on-disk state is modelled by the pair
(isFile, content). -/
def load_cache (isFile : Bool) (content : List Book) : Option (List Book) :=
  if isFile then some content else none

/-- The corpus list main ends up using: `books = load_cache(...) if
use_cache else None; if not books: books = [Book(f) for f in files]`.
Python's `not books` is true for None and for the empty list, so a cache
that deserializes to [] falls through to the re-scan, whose result (a
function of the glob pattern and the sample size) is the `scanned`
parameter. -/
def booksUsed (use_cache isFile : Bool) (content scanned : List Book) : List Book :=
  let books := if use_cache then load_cache isFile content else none
  match books with
  | some (b :: bs) => b :: bs
  | _ => scanned

/-- One metadata row of master_list.csv (the fields make_cites and
get_coauthors read); the store maps a filename key to its row, absent keys
raise KeyError.  All fields are present as strings in a row produced by
csv.DictReader. -/
structure MetaRec where
  authorFN : String
  authorLN : String
  title : String
  subtitle : String
deriving DecidableEq, Repr

/-- One bibliography entry, with the diagnostics pprint'ed for it:
make_cites's loop body for index i and filename id.  A missing metadata key
is caught per field pair, substituting "[Unknown author]" and "[id]" and
printing the id (once in each except block). -/
def citeEntry (md : String → Option MetaRec) (i : Nat) (id : String) : String × List String :=
  let ad := match md id with
    | some r => (r.authorLN.trim ++ (if r.authorFN ≠ "" then ", " ++ r.authorFN.trim else ""),
        ([] : List String))
    | none => ("[Unknown author]", [id])
  let td := match md id with
    | some r => (r.title ++ (if r.subtitle ≠ "" then ": " ++ r.subtitle.trim else ""),
        ([] : List String))
    | none => ("[" ++ id ++ "]", [id])
  ("<r>" ++ natStr (i + 1) ++ "</r> " ++ (ad.1 ++ ", <i>" ++ td.1 ++ "</i>"), ad.2 ++ td.2)

/-- make_cites's enumerate loop from a starting index. -/
def make_cites_from (md : String → Option MetaRec) : Nat → List String → List String × List String
  | _, [] => ([], [])
  | i, id :: rest =>
    let e := citeEntry md i id
    let r := make_cites_from md (i + 1) rest
    (e.1 :: r.1, e.2 ++ r.2)

/-- make_cites: the rendered reference list (first component) and the
diagnostics printed for unknown metadata keys (second component). -/
def make_cites (fns : List String) (md : String → Option MetaRec) : List String × List String :=
  make_cites_from md 0 fns

/-- get_coauthors: one formatted author name per cited filename, collected
into a set (modelled as a deduplicated list). -/
def get_coauthors (fns : List String) (md : String → Option MetaRec) : List String :=
  (fns.map fun id =>
    match md id with
    | some r => (if r.authorFN ≠ "" then r.authorFN.trim ++ " " else "") ++ r.authorLN.trim
    | none => "[Unknown author]").dedup

/-- The final HTML assembly of main.  The header interpolates
coauthors[:-1] and coauthors[-1]; on an empty co-author list the latter
raises IndexError, modelled by the none result. -/
def renderDoc (title first_author : String) (body : String) (coauthors : List String)
    (cite_list : String) : Option String :=
  match coauthors.getLast? with
  | none => none
  | some last =>
    some ("\n<title>" ++ title ++ " by " ++ first_author ++ " and " ++
      natStr coauthors.length ++ " Others</title>\n<link rel=\"stylesheet\" href=\"style.css\">\n" ++
      "<center id=\"top\">\n<h1><i>" ++ title ++ "</i></h1>\n<h3>by</h3>\n<h2>" ++ first_author ++
      "</h2>\n<h3>and</h3>\n<p>" ++ String.intercalate ", " coauthors.dropLast ++ " and " ++ last ++
      "\n<p>Jump to <a href=\"#references\">references</a>\n</center>\n<pre>\n" ++ body ++
      "\n\n<h1 id=\"references\">References</h1>\n" ++ cite_list ++
      "\n</pre>\n<p><a href=\"#top\">Back to top</a>\n")

/-- The effect of one re.sub(\b(word)\b, \1REF<n>REF, IGNORECASE) on one
segment: a word run matches exactly when the text it currently stands for
(run plus previously appended markers, one maximal word-character run)
equals the word up to case; the replacement appends the marker. -/
def citifySeg (w : List Char) (n : Nat) (seg : Seg) : Seg :=
  match seg with
  | Seg.word s ms =>
      if pyLower (renderSeg (Seg.word s ms)) = pyLower w then Seg.word s (ms ++ [n]) else seg
  | Seg.sep _ => seg

/-- The whole-text substitution for one word: re.sub rewrites every
matching maximal run. -/
def citify (w : List Char) (n : Nat) (segs : List Seg) : List Seg :=
  segs.map (citifySeg w n)

/-- The inner corpus scan: first book of the shuffled list whose token set
contains the lowercased word. -/
def scanBooks (shuffled : List Book) (w : List Char) : Option Book :=
  shuffled.find? fun b2 => b2.set.contains (pyLower w)

/-- The mutable state of the annotation loop: the primary text (as
segments), the done set (insertion-ordered) and the citation list. -/
structure LoopState where
  text : List Seg
  done : List (List Char)
  cites : List String
deriving DecidableEq, Repr

/-- One iteration of the per-word annotation loop: skip when the lowercase
word was already done or contains '*'; otherwise record it done, scan the
shuffled corpus, and for a hit append the filename to the citation list if
new and substitute the marker carrying index+1. -/
def step (shuffled : List Book) (st : LoopState) (word : List Char) : LoopState :=
  if st.done.contains (pyLower word) then st
  else if word.contains '*' then st
  else
    let done' := st.done ++ [pyLower word]
    match scanBooks shuffled word with
    | none => ⟨st.text, done', st.cites⟩
    | some b2 =>
      let cites' := if st.cites.contains b2.filename then st.cites else st.cites ++ [b2.filename]
      ⟨citify word (cites'.indexOf b2.filename + 1) st.text, done', cites'⟩

/-- The annotation loop over the word list; sh i is the corpus order the
in-place random.shuffle produced for iteration i. -/
def runLoopFrom (sh : Nat → List Book) : Nat → List (List Char) → LoopState → LoopState
  | _, [], st => st
  | i, w :: ws, st => runLoopFrom sh (i + 1) ws (step (sh i) st w)

/-- The annotation loop from the start of the word list. -/
def runLoop (sh : Nat → List Book) (words : List (List Char)) (st : LoopState) : LoopState :=
  runLoopFrom sh 0 words st

/-- The loop's starting state: the tokenized primary text, empty done set,
empty citation list. -/
def initState (text : List Char) : LoopState := ⟨toSegs text, [], []⟩

/-- Greedy run of ASCII digits, as matched by \d+. -/
def takeDigits : List Char → List Char × List Char
  | [] => ([], [])
  | c :: cs =>
    if isDigitChar c then (c :: (takeDigits cs).1, (takeDigits cs).2)
    else ([], c :: cs)

/-- Consumes a literal REF at the head of the text, if present. -/
def expectREF : List Char → Option (List Char)
  | c1 :: c2 :: c3 :: r => if c1 = 'R' ∧ c2 = 'E' ∧ c3 = 'F' then some r else none
  | _ => none

/-- The match of the final regex REF(\d+)REF at the head of the text:
digits captured and the rest of the text. -/
def matchSentinelAt (l : List Char) : Option (List Char × List Char) :=
  match expectREF l with
  | none => none
  | some r =>
    if (takeDigits r).1.isEmpty then none
    else match expectREF (takeDigits r).2 with
      | none => none
      | some rest => some ((takeDigits r).1, rest)

/-- re.sub(REF(\d+)REF, <r>\1</r>) scanning left to right, non-overlapping,
continuing after each replacement; fuel-driven (the text length is always
enough fuel) so that it reduces by evaluation. -/
def refSubAux : Nat → List Char → List Char
  | 0, l => l
  | fuel + 1, l =>
    match matchSentinelAt l with
    | some (ds, rest) => '<' :: 'r' :: '>' :: (ds ++ '<' :: '/' :: 'r' :: '>' :: refSubAux fuel rest)
    | none =>
      match l with
      | [] => []
      | c :: t => c :: refSubAux fuel t

/-- The final global marker-to-tag substitution of main. -/
def refSub (l : List Char) : List Char := refSubAux l.length l

/-- Whether a raw sentinel token matching REF\d+REF occurs anywhere in the
text. -/
def hasSentinelB : List Char → Bool
  | [] => false
  | c :: t => (matchSentinelAt (c :: t)).isSome || hasSentinelB t

/-- Characters a sentinel token is made of. -/
def sentChar (c : Char) : Bool := c == 'R' || c == 'E' || c == 'F' || isDigitChar c

/-- Consumes a literal reversed "ref" (that is, "fer") at the head of a
reversed text, if present. -/
def expectFER : List Char → Option (List Char)
  | c1 :: c2 :: c3 :: r => if c1 = 'f' ∧ c2 = 'e' ∧ c3 = 'r' then some r else none
  | _ => none

/-- Whether a word ends with a sentinel-shaped suffix ref<digits>ref (in
lowercase); a word of this shape can collide with an already marked run
under case-insensitive matching. -/
def endsWithSentinel (w : List Char) : Bool :=
  match expectFER w.reverse with
  | none => false
  | some rest =>
    if (takeDigits rest).1.isEmpty then false
    else (expectFER (takeDigits rest).2).isSome

/-- The property claim C1 states for a word W of the primary token set,
about the loop's final state: either no corpus book contains W and every
occurrence of W in the text is left unmodified, or there is exactly one
citation number n attached to all of W's occurrences, with n = i+1 for a
cited filename at index i belonging to a corpus book whose token set
contains W. -/
def ClaimOneProp (books : List Book) (segs0 : List Seg) (final : LoopState) (W : List Char) : Prop :=
  ((∀ b ∈ books, W ∉ b.set) ∧
    ∀ (j : Nat) (s : List Char), segs0[j]? = some (Seg.word s []) → pyLower s = W →
      final.text[j]? = some (Seg.word s [])) ∨
  (∃ (n i : Nat) (b : Book), final.cites[i]? = some b.filename ∧ n = i + 1 ∧ b ∈ books ∧
    W ∈ b.set ∧
    ∀ (j : Nat) (s : List Char), segs0[j]? = some (Seg.word s []) → pyLower s = W →
      final.text[j]? = some (Seg.word s [n]))

/-- The citation-list invariant of claim C2: the citation list holds no
duplicate filenames and every citation number already written into the text
falls in the dense range 1..length of the list. -/
def CitesInv (st : LoopState) : Prop :=
  st.cites.Nodup ∧ ∀ m ∈ textMarkers st.text, 1 ≤ m ∧ m ≤ st.cites.length

/-- The alignment invariant of claim C9: every citation number m written
into the text is i+1 for an index i of the citation list, the filename
there belongs to a corpus book, and that book's token set contains a word
already processed (the word the marker was inserted for). -/
def MarkerResolves (books : List Book) (st : LoopState) : Prop :=
  ∀ m ∈ textMarkers st.text, ∃ (i : Nat) (b : Book), m = i + 1 ∧
    st.cites[i]? = some b.filename ∧ b ∈ books ∧
    ∃ w : List Char, pyLower w ∈ b.set ∧ pyLower w ∈ st.done

end Citifier

namespace Citifier

/-! Basic character and digit lemmas. -/

theorem toNat_ofNat_lt {n : Nat} (h : n < 55296) : (Char.ofNat n).toNat = n := by
  have hv : Nat.isValidChar n := Or.inl h
  unfold Char.ofNat
  rw [dif_pos hv]
  simp [Char.ofNatAux, Char.toNat, UInt32.toNat, Nat.toUInt32]

theorem pyLowerChar_of_upper {c : Char} (h1 : 65 ≤ c.toNat) (h2 : c.toNat ≤ 90) :
    (pyLowerChar c).toNat = c.toNat + 32 := by
  unfold pyLowerChar
  rw [if_pos ⟨h1, h2⟩]
  exact toNat_ofNat_lt (by omega)

theorem pyLowerChar_of_not {c : Char} (h : ¬(65 ≤ c.toNat ∧ c.toNat ≤ 90)) :
    pyLowerChar c = c := by
  unfold pyLowerChar
  rw [if_neg h]

theorem pyLowerChar_idem (c : Char) : pyLowerChar (pyLowerChar c) = pyLowerChar c := by
  by_cases h : 65 ≤ c.toNat ∧ c.toNat ≤ 90
  · have h3 := pyLowerChar_of_upper h.1 h.2
    exact pyLowerChar_of_not (by omega)
  · rw [pyLowerChar_of_not h]
    exact pyLowerChar_of_not h

theorem pyLower_cons (c : Char) (t : List Char) :
    pyLower (c :: t) = pyLowerChar c :: pyLower t := rfl

theorem pyLower_append (a b : List Char) : pyLower (a ++ b) = pyLower a ++ pyLower b :=
  List.map_append pyLowerChar a b

theorem pyLower_idem (l : List Char) : pyLower (pyLower l) = pyLower l := by
  unfold pyLower
  rw [List.map_map]
  exact List.map_congr_left fun c _ => pyLowerChar_idem c

theorem pyLowerChar_digit {c : Char} (h : isDigitChar c = true) : pyLowerChar c = c := by
  unfold isDigitChar at h
  have h2 := of_decide_eq_true h
  exact pyLowerChar_of_not (by omega)

theorem pyLower_digits {l : List Char} (h : ∀ c ∈ l, isDigitChar c = true) :
    pyLower l = l := by
  induction l with
  | nil => rfl
  | cons c t ih =>
    rw [pyLower_cons, pyLowerChar_digit (h c (List.mem_cons_self c t)),
      ih fun x hx => h x (List.mem_cons_of_mem c hx)]

theorem digit_ne_R {c : Char} (h : isDigitChar c = true) : c ≠ 'R' := by
  intro heq
  subst heq
  exact absurd h (by decide)

theorem isDigitChar_digitChar (k : Nat) : isDigitChar (digitChar k) = true := by
  unfold digitChar
  split <;> decide

theorem natDigitsAux_digits : ∀ (fuel n : Nat), ∀ c ∈ natDigitsAux fuel n, isDigitChar c = true := by
  intro fuel
  induction fuel with
  | zero =>
    intro n c hc
    simp [natDigitsAux] at hc
  | succ f ih =>
    intro n c hc
    unfold natDigitsAux at hc
    split at hc
    · rw [List.mem_singleton] at hc
      subst hc
      exact isDigitChar_digitChar n
    · rcases List.mem_append.mp hc with h | h
      · exact ih _ c h
      · rw [List.mem_singleton] at h
        subst h
        exact isDigitChar_digitChar _

theorem natDigits_digits (n : Nat) : ∀ c ∈ natDigits n, isDigitChar c = true :=
  natDigitsAux_digits (n + 1) n

theorem natDigits_ne_nil (n : Nat) : natDigits n ≠ [] := by
  unfold natDigits natDigitsAux
  split <;> simp

end Citifier

namespace Citifier

/-! Lemmas about the final-substitution regex machinery. -/

theorem takeDigits_eq (l : List Char) : (takeDigits l).1 ++ (takeDigits l).2 = l := by
  induction l with
  | nil => rfl
  | cons c t ih =>
    unfold takeDigits
    split
    · simpa using ih
    · rfl

theorem takeDigits_digits (l : List Char) : ∀ c ∈ (takeDigits l).1, isDigitChar c = true := by
  induction l with
  | nil =>
    intro c hc
    simp [takeDigits] at hc
  | cons x t ih =>
    intro c hc
    unfold takeDigits at hc
    split at hc
    · rcases List.mem_cons.mp hc with h | h
      · subst h
        assumption
      · exact ih c h
    · simp at hc

theorem takeDigits_append_R (ds : List Char) (hds : ∀ c ∈ ds, isDigitChar c = true)
    (t : List Char) : takeDigits (ds ++ 'R' :: t) = (ds, 'R' :: t) := by
  induction ds with
  | nil =>
    rw [List.nil_append]
    unfold takeDigits
    rw [if_neg (by decide)]
  | cons d ds ih =>
    have hd := hds d (List.mem_cons_self d ds)
    have ih2 := ih fun c hc => hds c (List.mem_cons_of_mem d hc)
    rw [List.cons_append]
    unfold takeDigits
    rw [if_pos hd, ih2]

theorem expectREF_eq_some {l r : List Char} :
    expectREF l = some r ↔ l = 'R' :: 'E' :: 'F' :: r := by
  constructor
  · intro h
    rcases l with _ | ⟨c1, _ | ⟨c2, _ | ⟨c3, rest⟩⟩⟩
    · simp [expectREF] at h
    · simp [expectREF] at h
    · simp [expectREF] at h
    · simp only [expectREF] at h
      split_ifs at h with hc
      obtain ⟨h1, h2, h3⟩ := hc
      subst h1; subst h2; subst h3
      rw [Option.some.injEq] at h
      rw [h]
  · intro h
    subst h
    simp [expectREF]

theorem matchSentinelAt_eq_some {l ds rest : List Char}
    (h : matchSentinelAt l = some (ds, rest)) :
    l = 'R' :: 'E' :: 'F' :: (ds ++ 'R' :: 'E' :: 'F' :: rest) ∧ ds ≠ [] ∧
      ∀ c ∈ ds, isDigitChar c = true := by
  cases h1 : expectREF l with
  | none =>
    simp only [matchSentinelAt, h1] at h
    exact Option.noConfusion h
  | some r =>
    simp only [matchSentinelAt, h1] at h
    split_ifs at h with he
    cases h2 : expectREF (takeDigits r).2 with
    | none =>
      simp only [h2] at h
      exact Option.noConfusion h
    | some rest2 =>
      simp only [h2] at h
      rw [Option.some.injEq, Prod.mk.injEq] at h
      obtain ⟨h3, h4⟩ := h
      have hr : r = ds ++ 'R' :: 'E' :: 'F' :: rest := by
        rw [← takeDigits_eq r, h3, expectREF_eq_some.mp h2, h4]
      refine ⟨?_, ?_, ?_⟩
      · rw [expectREF_eq_some.mp h1, hr]
      · intro hnil
        rw [h3, hnil] at he
        exact he rfl
      · intro c hc
        rw [← h3] at hc
        exact takeDigits_digits r c hc

theorem matchSentinelAt_of_shape {ds rest : List Char} (hne : ds ≠ [])
    (hds : ∀ c ∈ ds, isDigitChar c = true) :
    matchSentinelAt ('R' :: 'E' :: 'F' :: (ds ++ 'R' :: 'E' :: 'F' :: rest)) =
      some (ds, rest) := by
  have h1 : expectREF ('R' :: 'E' :: 'F' :: (ds ++ 'R' :: 'E' :: 'F' :: rest)) =
      some (ds ++ 'R' :: 'E' :: 'F' :: rest) := expectREF_eq_some.mpr rfl
  have h2 : expectREF ('R' :: 'E' :: 'F' :: rest) = some rest := expectREF_eq_some.mpr rfl
  have h3 : ds.isEmpty = false := by
    cases ds with
    | nil => exact absurd rfl hne
    | cons d t => rfl
  simp [matchSentinelAt, h1, h2, h3, takeDigits_append_R ds hds ('E' :: 'F' :: rest)]

theorem matchSentinelAt_head {c : Char} {l : List Char} (h : c ≠ 'R') :
    matchSentinelAt (c :: l) = none := by
  cases hm : matchSentinelAt (c :: l) with
  | none => rfl
  | some p =>
    obtain ⟨ds, rest⟩ := p
    obtain ⟨heq, -, -⟩ := matchSentinelAt_eq_some hm
    rw [List.cons.injEq] at heq
    exact absurd heq.1 h

theorem matchSentinelAt_rest_length {l ds rest : List Char}
    (h : matchSentinelAt l = some (ds, rest)) : rest.length < l.length := by
  obtain ⟨heq, -, -⟩ := matchSentinelAt_eq_some h
  rw [heq]
  simp
  omega

theorem sentChar_of_digit {c : Char} (h : isDigitChar c = true) : sentChar c = true := by
  unfold sentChar
  rw [h]
  simp

theorem hasSentinelB_cons (c : Char) (t : List Char) :
    hasSentinelB (c :: t) = ((matchSentinelAt (c :: t)).isSome || hasSentinelB t) := rfl

theorem hasSentinelB_cons_not_R {c : Char} (h : c ≠ 'R') (t : List Char) :
    hasSentinelB (c :: t) = hasSentinelB t := by
  rw [hasSentinelB_cons, matchSentinelAt_head h]
  rfl

theorem hasSentinelB_digits_append {ds : List Char} (hds : ∀ c ∈ ds, isDigitChar c = true)
    (t : List Char) : hasSentinelB (ds ++ t) = hasSentinelB t := by
  induction ds with
  | nil => rfl
  | cons d ds ih =>
    rw [List.cons_append,
      hasSentinelB_cons_not_R (digit_ne_R (hds d (List.mem_cons_self d ds))),
      ih fun c hc => hds c (List.mem_cons_of_mem d hc)]

theorem refSubAux_succ (f : Nat) (l : List Char) :
    refSubAux (f + 1) l =
      match matchSentinelAt l with
      | some (ds, rest) =>
          '<' :: 'r' :: '>' :: (ds ++ '<' :: '/' :: 'r' :: '>' :: refSubAux f rest)
      | none =>
        match l with
        | [] => []
        | c :: t => c :: refSubAux f t := rfl

theorem refSubAux_pref : ∀ (fuel : Nat) (l w : List Char), l.length ≤ fuel →
    (∀ c ∈ w, sentChar c = true) → (∃ t, w ++ t = refSubAux fuel l) → ∃ t, w ++ t = l := by
  intro fuel
  induction fuel with
  | zero =>
    intro l w _ _ h
    simpa [refSubAux] using h
  | succ f ih =>
    intro l w hl hw h
    obtain ⟨t, ht⟩ := h
    rw [refSubAux_succ] at ht
    cases hm : matchSentinelAt l with
    | some p =>
      obtain ⟨ds, rest⟩ := p
      rw [hm] at ht
      cases w with
      | nil => exact ⟨l, rfl⟩
      | cons c w2 =>
        rw [List.cons_append, List.cons.injEq] at ht
        have hc := hw c (List.mem_cons_self c w2)
        rw [ht.1] at hc
        exact absurd hc (by decide)
    | none =>
      rw [hm] at ht
      cases l with
      | nil =>
        have : w = [] := by
          have h2 := List.append_eq_nil.mp ht
          exact h2.1
        subst this
        exact ⟨[], rfl⟩
      | cons c l2 =>
        cases w with
        | nil => exact ⟨c :: l2, rfl⟩
        | cons c0 w2 =>
          rw [List.cons_append, List.cons.injEq] at ht
          obtain ⟨t2, ht2⟩ := ih l2 w2 (by simpa using hl)
            (fun x hx => hw x (List.mem_cons_of_mem c0 hx)) ⟨t, ht.2⟩
          exact ⟨t2, by rw [List.cons_append, ht.1, ht2]⟩

theorem refSubAux_noSentinel : ∀ (fuel : Nat) (l : List Char), l.length ≤ fuel →
    hasSentinelB (refSubAux fuel l) = false := by
  intro fuel
  induction fuel with
  | zero =>
    intro l hl
    have : l = [] := List.length_eq_zero.mp (Nat.le_zero.mp hl)
    subst this
    rfl
  | succ f ih =>
    intro l hl
    rw [refSubAux_succ]
    cases hm : matchSentinelAt l with
    | some p =>
      obtain ⟨ds, rest⟩ := p
      obtain ⟨heq, hne, hds⟩ := matchSentinelAt_eq_some hm
      have hrest : rest.length ≤ f := by
        have := matchSentinelAt_rest_length hm
        omega
      rw [hasSentinelB_cons_not_R (by decide), hasSentinelB_cons_not_R (by decide),
        hasSentinelB_cons_not_R (by decide), hasSentinelB_digits_append hds,
        hasSentinelB_cons_not_R (by decide), hasSentinelB_cons_not_R (by decide),
        hasSentinelB_cons_not_R (by decide), hasSentinelB_cons_not_R (by decide)]
      exact ih rest hrest
    | none =>
      cases l with
      | nil => rfl
      | cons c l2 =>
        have hl2 : l2.length ≤ f := by simpa using hl
        rw [hasSentinelB_cons, ih l2 hl2, Bool.or_false]
        cases hm2 : matchSentinelAt (c :: refSubAux f l2) with
        | none => rfl
        | some p2 =>
          exfalso
          obtain ⟨ds, rest2⟩ := p2
          obtain ⟨heq2, hne2, hds2⟩ := matchSentinelAt_eq_some hm2
          rw [List.cons.injEq] at heq2
          obtain ⟨hcR, hrec⟩ := heq2
          have hwpref : ∃ t, ('E' :: 'F' :: (ds ++ ['R', 'E', 'F'])) ++ t = refSubAux f l2 := by
            refine ⟨rest2, ?_⟩
            rw [hrec]
            simp
          have hws : ∀ x ∈ ('E' :: 'F' :: (ds ++ ['R', 'E', 'F'])), sentChar x = true := by
            intro x hx
            rcases List.mem_cons.mp hx with h | hx2
            · subst h; decide
            rcases List.mem_cons.mp hx2 with h | hx3
            · subst h; decide
            rcases List.mem_append.mp hx3 with h | h
            · exact sentChar_of_digit (hds2 x h)
            · simp only [List.mem_cons, List.not_mem_nil, or_false] at h
              rcases h with h | h | h <;> (subst h; decide)
          obtain ⟨t, htl⟩ := refSubAux_pref f l2 _ hl2 hws hwpref
          have hshape : c :: l2 = 'R' :: 'E' :: 'F' :: (ds ++ 'R' :: 'E' :: 'F' :: t) := by
            rw [hcR, ← htl]
            simp
          rw [hshape, matchSentinelAt_of_shape hne2 hds2] at hm
          exact Option.noConfusion hm

end Citifier

namespace Citifier

/-- C3: round-trip of the sentinel encoding — whatever marker-bearing text
the per-word substitutions have produced, the final global substitution
REF(\d+)REF → <r>\1</r> leaves no raw sentinel token matching REF\d+REF
anywhere in the rendered body text. -/
theorem claim3_no_sentinel_left (segs : List Seg) :
    hasSentinelB (refSub (renderSegs segs)) = false :=
  refSubAux_noSentinel (renderSegs segs).length (renderSegs segs) le_rfl

/-! Lemmas about make_cites. -/

theorem make_cites_from_length (md : String → Option MetaRec) :
    ∀ (k : Nat) (fns : List String), (make_cites_from md k fns).1.length = fns.length := by
  intro k fns
  induction fns generalizing k with
  | nil => rfl
  | cons id rest ih => simp [make_cites_from, ih]

theorem make_cites_from_getElem (md : String → Option MetaRec) :
    ∀ (k i : Nat) (fns : List String),
      (make_cites_from md k fns).1[i]? = (fns[i]?).map fun id => (citeEntry md (k + i) id).1 := by
  intro k i fns
  induction fns generalizing k i with
  | nil => simp [make_cites_from]
  | cons id rest ih =>
    cases i with
    | zero => simp [make_cites_from]
    | succ j =>
      have harith : k + 1 + j = k + (j + 1) := by omega
      simp [make_cites_from, ih (k + 1) j, harith]

theorem make_cites_from_diag (md : String → Option MetaRec) :
    ∀ (k i : Nat) (fns : List String) (id : String),
      fns[i]? = some id → md id = none → id ∈ (make_cites_from md k fns).2 := by
  intro k i fns
  induction fns generalizing k i with
  | nil =>
    intro id h
    simp at h
  | cons f rest ih =>
    intro id h hmd
    cases i with
    | zero =>
      simp at h
      subst h
      simp [make_cites_from, citeEntry, hmd]
    | succ j =>
      simp only [List.getElem?_cons_succ] at h
      have hmem := ih (k + 1) j id h hmd
      simp only [make_cites_from, List.mem_append]
      exact Or.inr hmem

/-- C5: for a citation filename absent from the metadata store, building
the reference list does not raise — the entry gets the placeholder author
"[Unknown author]" and the placeholder title "[filename]", a diagnostic is
recorded, and all remaining citations are still processed (the output has
one entry per citation). -/
theorem claim5_missing_metadata (fns : List String) (md : String → Option MetaRec) (i : Nat)
    (id : String) (hid : fns[i]? = some id) (hmd : md id = none) :
    (make_cites fns md).1[i]? =
      some ("<r>" ++ natStr (i + 1) ++ "</r> " ++
        ("[Unknown author]" ++ ", <i>" ++ ("[" ++ id ++ "]") ++ "</i>")) ∧
    (make_cites fns md).1.length = fns.length ∧ id ∈ (make_cites fns md).2 := by
  refine ⟨?_, make_cites_from_length md 0 fns, make_cites_from_diag md 0 i fns id hid hmd⟩
  rw [make_cites, make_cites_from_getElem md 0 i fns, hid]
  simp [citeEntry, hmd]

/-- Witness for C5 at a concrete input: one citation filename, empty
metadata store. -/
theorem claim5_witness :
    (make_cites ["x.txt"] (fun _ => none)).1[0]? =
      some ("<r>" ++ natStr 1 ++ "</r> " ++
        ("[Unknown author]" ++ ", <i>" ++ ("[" ++ "x.txt" ++ "]") ++ "</i>")) :=
  (claim5_missing_metadata ["x.txt"] (fun _ => none) 0 "x.txt" rfl rfl).1

/-- C6: a source file whose bytes fail to decode under cp1252 still yields
a Book; its token set is empty, so it can never supply a citation for any
word. -/
theorem claim6_decode_failure (p : String) (bytes : List Nat)
    (h : cp1252Decode bytes = none) :
    (mkBook p bytes).set = [] ∧ ∀ w, w ∉ (mkBook p bytes).set := by
  have hs : (mkBook p bytes).set = [] := by
    simp only [mkBook, h]
    rfl
  refine ⟨hs, fun w => ?_⟩
  rw [hs]
  exact List.not_mem_nil w

/-- Witness for C6: byte 0x81 is undefined in cp1252. -/
theorem claim6_witness : (mkBook "f.txt" [129]).set = [] :=
  (claim6_decode_failure "f.txt" [129] (by decide)).1

/-- C4 counterexample: with caching enabled and the cache file present but
deserializing to the empty list, the corpus list used is the freshly
scanned list, not the cache content — Python's `if not books:` treats an
empty cached list as a cache miss, so the claim's "unconditionally" fails. -/
theorem claim4_counterexample :
    booksUsed true true [] [mkBook "b1.txt" [97, 98]] = [mkBook "b1.txt" [97, 98]] ∧
      [mkBook "b1.txt" [97, 98]] ≠ ([] : List Book) := by
  constructor
  · rfl
  · simp

/-- C4 amended: when caching is enabled, the cache file exists, and the
deserialized cache content is non-empty, the corpus list used for
annotation is exactly the cache content, independent of the scan result
(and hence of the glob pattern and sample size that produced it). -/
theorem claim4_amended (content scanned : List Book) (h : content ≠ []) :
    booksUsed true true content scanned = content := by
  cases content with
  | nil => exact absurd rfl h
  | cons b bs => rfl

/-- Witness for C4 amended at a concrete non-empty cache. -/
theorem claim4_witness :
    booksUsed true true [mkBook "b1.txt" [97, 98]] [] = [mkBook "b1.txt" [97, 98]] :=
  claim4_amended [mkBook "b1.txt" [97, 98]] [] (by simp)

/-- C7: for any two runs over the same corpus (any two shuffle outcomes,
each a permutation of the corpus), the citation source chosen for a word is
always a member of the fixed set of corpus books whose token set contains
the lowercased word, and whether any source exists at all is the same
across both runs — only the choice within that fixed set can differ. -/
theorem claim7_bounded_nondeterminism (books : List Book) (sh1 sh2 : Nat → List Book)
    (h1 : ∀ i, (sh1 i).Perm books) (h2 : ∀ i, (sh2 i).Perm books) (i : Nat) (w : List Char) :
    (∀ b, scanBooks (sh1 i) w = some b → b ∈ books ∧ pyLower w ∈ b.set) ∧
    (∀ b, scanBooks (sh2 i) w = some b → b ∈ books ∧ pyLower w ∈ b.set) ∧
    ((scanBooks (sh1 i) w).isSome ↔ (scanBooks (sh2 i) w).isSome) := by
  have key : ∀ (sh : Nat → List Book), (∀ j, (sh j).Perm books) →
      ∀ b, scanBooks (sh i) w = some b → b ∈ books ∧ pyLower w ∈ b.set := by
    intro sh hsh b hb
    have hb2 : List.find? (fun b2 => b2.set.contains (pyLower w)) (sh i) = some b := hb
    refine ⟨(hsh i).mem_iff.mp (List.mem_of_find?_eq_some hb2), ?_⟩
    have hp := List.find?_some hb2
    exact List.mem_of_elem_eq_true hp
  have hiff : ∀ x : Book, x ∈ sh1 i ↔ x ∈ sh2 i :=
    fun x => (h1 i).mem_iff.trans (h2 i).mem_iff.symm
  refine ⟨key sh1 h1, key sh2 h2, ?_⟩
  rw [scanBooks, scanBooks, List.find?_isSome, List.find?_isSome]
  constructor
  · rintro ⟨x, hx, hp⟩
    exact ⟨x, (hiff x).mp hx, hp⟩
  · rintro ⟨x, hx, hp⟩
    exact ⟨x, (hiff x).mpr hx, hp⟩

/-- Witness for C7 at a concrete two-book corpus scanned in both orders. -/
theorem claim7_witness :
    (scanBooks [mkBook "b1.txt" [97, 98], mkBook "b2.txt" [99, 100]] "ab".data).isSome ↔
      (scanBooks [mkBook "b2.txt" [99, 100], mkBook "b1.txt" [97, 98]] "ab".data).isSome := by
  have hperm : ([mkBook "b2.txt" [99, 100], mkBook "b1.txt" [97, 98]]).Perm
      [mkBook "b1.txt" [97, 98], mkBook "b2.txt" [99, 100]] :=
    List.Perm.swap (mkBook "b1.txt" [97, 98]) (mkBook "b2.txt" [99, 100]) []
  exact (claim7_bounded_nondeterminism [mkBook "b1.txt" [97, 98], mkBook "b2.txt" [99, 100]]
    (fun _ => [mkBook "b1.txt" [97, 98], mkBook "b2.txt" [99, 100]])
    (fun _ => [mkBook "b2.txt" [99, 100], mkBook "b1.txt" [97, 98]])
    (fun _ => List.Perm.refl _) (fun _ => hperm) 0 "ab".data).2.2

end Citifier

namespace Citifier

/-! Structural lemmas about the annotation loop. -/

theorem runLoopFrom_cons (sh : Nat → List Book) (i : Nat) (w : List Char)
    (ws : List (List Char)) (st : LoopState) :
    runLoopFrom sh i (w :: ws) st = runLoopFrom sh (i + 1) ws (step (sh i) st w) := rfl

theorem runLoopFrom_append (sh : Nat → List Book) (a b : List (List Char)) :
    ∀ (i : Nat) (st : LoopState),
      runLoopFrom sh i (a ++ b) st = runLoopFrom sh (i + a.length) b (runLoopFrom sh i a st) := by
  induction a with
  | nil =>
    intro i st
    simp [runLoopFrom]
  | cons w ws ih =>
    intro i st
    have harith : i + 1 + ws.length = i + (ws.length + 1) := by omega
    rw [List.cons_append, runLoopFrom_cons, runLoopFrom_cons, ih (i + 1), List.length_cons, harith]

/-- Case analysis of one loop iteration, mirroring the four control paths
of the loop body. -/
theorem step_cases (shuffled : List Book) (st : LoopState) (w : List Char) :
    (st.done.contains (pyLower w) = true ∧ step shuffled st w = st) ∨
    (st.done.contains (pyLower w) = false ∧ w.contains '*' = true ∧ step shuffled st w = st) ∨
    (st.done.contains (pyLower w) = false ∧ w.contains '*' = false ∧
      scanBooks shuffled w = none ∧
      step shuffled st w = ⟨st.text, st.done ++ [pyLower w], st.cites⟩) ∨
    (∃ b2, st.done.contains (pyLower w) = false ∧ w.contains '*' = false ∧
      scanBooks shuffled w = some b2 ∧
      step shuffled st w =
        ⟨citify w (((if st.cites.contains b2.filename then st.cites
            else st.cites ++ [b2.filename]).indexOf b2.filename) + 1) st.text,
          st.done ++ [pyLower w],
          if st.cites.contains b2.filename then st.cites else st.cites ++ [b2.filename]⟩) := by
  by_cases h1 : st.done.contains (pyLower w) = true
  · left
    exact ⟨h1, by unfold step; rw [if_pos h1]⟩
  · have h1f : st.done.contains (pyLower w) = false := by
      cases hh : st.done.contains (pyLower w)
      · rfl
      · exact absurd hh h1
    by_cases h2 : w.contains '*' = true
    · right; left
      refine ⟨h1f, h2, ?_⟩
      unfold step
      rw [if_neg h1, if_pos h2]
    · have h2f : w.contains '*' = false := by
        cases hh : w.contains '*'
        · rfl
        · exact absurd hh h2
      cases h3 : scanBooks shuffled w with
      | none =>
        right; right; left
        refine ⟨h1f, h2f, rfl, ?_⟩
        unfold step
        rw [if_neg h1, if_neg h2, h3]
      | some b2 =>
        right; right; right
        refine ⟨b2, h1f, h2f, rfl, ?_⟩
        unfold step
        rw [if_neg h1, if_neg h2, h3]

theorem step_done (shuffled : List Book) (st : LoopState) (w : List Char) :
    (step shuffled st w).done =
      if st.done.contains (pyLower w) = true then st.done
      else if w.contains '*' = true then st.done
      else st.done ++ [pyLower w] := by
  rcases step_cases shuffled st w with ⟨h1, hs⟩ | ⟨h1, h2, hs⟩ | ⟨h1, h2, h3, hs⟩ |
    ⟨b2, h1, h2, h3, hs⟩
  · rw [hs, if_pos h1]
  · rw [hs, h1, h2]
    simp
  · rw [hs, h1, h2]
    simp
  · rw [hs, h1, h2]
    simp

theorem step_cites_extend (shuffled : List Book) (st : LoopState) (w : List Char) :
    ∃ t, (step shuffled st w).cites = st.cites ++ t := by
  rcases step_cases shuffled st w with ⟨h1, hs⟩ | ⟨h1, h2, hs⟩ | ⟨h1, h2, h3, hs⟩ |
    ⟨b2, h1, h2, h3, hs⟩
  · exact ⟨[], by rw [hs]; simp⟩
  · exact ⟨[], by rw [hs]; simp⟩
  · exact ⟨[], by rw [hs]; simp⟩
  · by_cases hc : st.cites.contains b2.filename = true
    · refine ⟨[], ?_⟩
      rw [hs]
      show (if st.cites.contains b2.filename = true then st.cites
        else st.cites ++ [b2.filename]) = st.cites ++ []
      rw [if_pos hc, List.append_nil]
    · refine ⟨[b2.filename], ?_⟩
      rw [hs]
      show (if st.cites.contains b2.filename = true then st.cites
        else st.cites ++ [b2.filename]) = st.cites ++ [b2.filename]
      rw [if_neg hc]

theorem step_done_extend (shuffled : List Book) (st : LoopState) (w : List Char) :
    ∃ t, (step shuffled st w).done = st.done ++ t := by
  rw [step_done]
  split_ifs
  · exact ⟨[], by simp⟩
  · exact ⟨[], by simp⟩
  · exact ⟨[pyLower w], rfl⟩

theorem runLoopFrom_cites_extend (sh : Nat → List Book) :
    ∀ (ws : List (List Char)) (i : Nat) (st : LoopState),
      ∃ t, (runLoopFrom sh i ws st).cites = st.cites ++ t := by
  intro ws
  induction ws with
  | nil =>
    intro i st
    exact ⟨[], by simp [runLoopFrom]⟩
  | cons w ws ih =>
    intro i st
    obtain ⟨t1, h1⟩ := step_cites_extend (sh i) st w
    obtain ⟨t2, h2⟩ := ih (i + 1) (step (sh i) st w)
    exact ⟨t1 ++ t2, by rw [runLoopFrom_cons, h2, h1, List.append_assoc]⟩

theorem runLoopFrom_done_extend (sh : Nat → List Book) :
    ∀ (ws : List (List Char)) (i : Nat) (st : LoopState),
      ∃ t, (runLoopFrom sh i ws st).done = st.done ++ t := by
  intro ws
  induction ws with
  | nil =>
    intro i st
    exact ⟨[], by simp [runLoopFrom]⟩
  | cons w ws ih =>
    intro i st
    obtain ⟨t1, h1⟩ := step_done_extend (sh i) st w
    obtain ⟨t2, h2⟩ := ih (i + 1) (step (sh i) st w)
    exact ⟨t1 ++ t2, by rw [runLoopFrom_cons, h2, h1, List.append_assoc]⟩

theorem runLoopFrom_cites_getElem (sh : Nat → List Book) (ws : List (List Char)) (i : Nat)
    (st : LoopState) {j : Nat} {v : String} (h : st.cites[j]? = some v) :
    (runLoopFrom sh i ws st).cites[j]? = some v := by
  obtain ⟨t, ht⟩ := runLoopFrom_cites_extend sh ws i st
  have hj : j < st.cites.length := by
    by_contra hge
    rw [List.getElem?_eq_none (by omega)] at h
    exact Option.noConfusion h
  rw [ht, List.getElem?_append_left hj, h]

theorem getElem?_indexOf_self {l : List String} {a : String} (h : a ∈ l) :
    l[l.indexOf a]? = some a := by
  rw [List.getElem?_eq_getElem (List.indexOf_lt_length.mpr h)]
  simp [List.getElem_indexOf]

end Citifier

namespace Citifier

/-! Claims C8 and C10. -/

theorem scanBooks_nil (w : List Char) : scanBooks [] w = none := rfl

theorem runLoop_empty_corpus_cites (sh : Nat → List Book) (hsh : ∀ i, sh i = []) :
    ∀ (ws : List (List Char)) (i : Nat) (st : LoopState),
      (runLoopFrom sh i ws st).cites = st.cites := by
  intro ws
  induction ws with
  | nil =>
    intro i st
    rfl
  | cons w ws ih =>
    intro i st
    rw [runLoopFrom_cons, ih]
    rcases step_cases (sh i) st w with ⟨-, hs⟩ | ⟨-, -, hs⟩ | ⟨-, -, -, hs⟩ |
      ⟨b2, -, -, h3, hs⟩
    · rw [hs]
    · rw [hs]
    · rw [hs]
    · rw [hsh i, scanBooks_nil] at h3
      exact Option.noConfusion h3

/-- C8: when the corpus is empty (every shuffle outcome is the empty list),
the annotation loop produces an empty citation list, the co-author list is
empty, and rendering fails at the indexing of the co-author list's last
element instead of producing a complete HTML document. -/
theorem claim8_empty_citations (sh : Nat → List Book) (hsh : ∀ i, sh i = [])
    (ws : List (List Char)) (text : List Char) (md : String → Option MetaRec)
    (t a body cl : String) :
    (runLoop sh ws (initState text)).cites = [] ∧
    get_coauthors (runLoop sh ws (initState text)).cites md = [] ∧
    renderDoc t a body (get_coauthors (runLoop sh ws (initState text)).cites md) cl = none := by
  have h1 : (runLoop sh ws (initState text)).cites = [] :=
    runLoop_empty_corpus_cites sh hsh ws 0 (initState text)
  rw [h1]
  exact ⟨rfl, rfl, rfl⟩

/-- Witness for C8 at a concrete empty corpus. -/
theorem claim8_witness :
    renderDoc "T" "A" "B"
      (get_coauthors (runLoop (fun _ => []) ["ab".data] (initState "ab".data)).cites
        (fun _ => none)) "C" = none :=
  (claim8_empty_citations (fun _ => []) (fun _ => rfl) ["ab".data] "ab".data
    (fun _ => none) "T" "A" "B" "C").2.2

theorem mkBook_set_lower (p : String) (bytes : List Nat) :
    ∀ w ∈ (mkBook p bytes).set, pyLower w = w := by
  intro w hw
  simp only [mkBook] at hw
  rw [List.mem_dedup] at hw
  obtain ⟨t, -, ht⟩ := List.mem_map.mp hw
  rw [← ht, pyLower_idem]

theorem runLoopFrom_done_charact (sh : Nat → List Book) :
    ∀ (ws : List (List Char)) (i : Nat) (st : LoopState),
      ws.Nodup → (∀ w ∈ ws, pyLower w = w) → (∀ w ∈ ws, w ∉ st.done) →
      (runLoopFrom sh i ws st).done = st.done ++ ws.filter (fun w => !(w.contains '*')) := by
  intro ws
  induction ws with
  | nil =>
    intro i st _ _ _
    simp [runLoopFrom]
  | cons w ws ih =>
    intro i st hnd hlow hdisj
    have hlw : pyLower w = w := hlow w (List.mem_cons_self w ws)
    have hw0 : w ∉ st.done := hdisj w (List.mem_cons_self w ws)
    have hcont : st.done.contains (pyLower w) = false := by
      rw [hlw]
      cases hh : st.done.contains w
      · rfl
      · exact absurd (List.mem_of_elem_eq_true hh) hw0
    have hdone : (step (sh i) st w).done =
        st.done ++ (if w.contains '*' = true then [] else [w]) := by
      rw [step_done, hcont]
      simp only [Bool.false_eq_true, if_false]
      split_ifs with h
      · simp
      · rw [hlw]
    have hnd2 : ws.Nodup := (List.nodup_cons.mp hnd).2
    have hlow2 : ∀ x ∈ ws, pyLower x = x := fun x hx => hlow x (List.mem_cons_of_mem w hx)
    have hdisj2 : ∀ x ∈ ws, x ∉ (step (sh i) st w).done := by
      intro x hx
      rw [hdone]
      intro hmem
      rcases List.mem_append.mp hmem with h | h
      · exact hdisj x (List.mem_cons_of_mem w hx) h
      · split_ifs at h with hs
        · exact List.not_mem_nil x h
        · rw [List.mem_singleton] at h
          subst h
          exact (List.nodup_cons.mp hnd).1 hx
    rw [runLoopFrom_cons, ih (i + 1) _ hnd2 hlow2 hdisj2, hdone, List.filter_cons]
    by_cases hs : w.contains '*' = true
    · rw [if_pos hs]
      have hb : (!(w.contains '*')) = false := by rw [hs]; rfl
      rw [hb]
      simp
    · rw [if_neg hs]
      have hb : (!(w.contains '*')) = true := by
        cases hh : w.contains '*'
        · rfl
        · exact absurd hh hs
      rw [hb]
      simp

/-- C10: every Book token set holds only lowercase tokens, and therefore
the case-variant guard `word.lower() in done` never skips a word of the
primary token set: iterated in any order, every word without '*' is
processed exactly once and the final done set is exactly the primary token
set minus the words containing '*'. -/
theorem claim10_done_set (sh : Nat → List Book) (text : List Char) (p : String)
    (bytes : List Nat) (ws : List (List Char)) (hperm : ws.Perm (mkBook p bytes).set) :
    (∀ w ∈ (mkBook p bytes).set, pyLower w = w) ∧
    (runLoop sh ws (initState text)).done = ws.filter (fun w => !(w.contains '*')) := by
  refine ⟨mkBook_set_lower p bytes, ?_⟩
  have hndset : (mkBook p bytes).set.Nodup := by
    simp only [mkBook]
    exact List.nodup_dedup _
  have hnd : ws.Nodup := hperm.symm.nodup hndset
  have hlow : ∀ w ∈ ws, pyLower w = w :=
    fun w hw => mkBook_set_lower p bytes w (hperm.mem_iff.mp hw)
  have h := runLoopFrom_done_charact sh ws 0 (initState text) hnd hlow
    (fun w _ hmem => List.not_mem_nil w hmem)
  rw [runLoop, h]
  rfl

/-- Witness for C10 at a concrete one-word book. -/
theorem claim10_witness :
    (runLoop (fun _ => []) ["ab".data] (initState "ab".data)).done =
      (["ab".data] : List (List Char)).filter (fun w => !(w.contains '*')) :=
  (claim10_done_set (fun _ => []) "ab".data "b.txt" [97, 98] ["ab".data]
    (List.Perm.refl _)).2

end Citifier

namespace Citifier

/-! Marker bookkeeping lemmas for claims C2 and C9. -/

theorem segMarkers_mkSeg (isw : Bool) (run : List Char) : segMarkers (mkSeg isw run) = [] := by
  unfold mkSeg
  split_ifs <;> rfl

theorem textMarkers_cons (s : Seg) (rest : List Seg) :
    textMarkers (s :: rest) = segMarkers s ++ textMarkers rest := rfl

theorem textMarkers_toSegsAux : ∀ (cs : List Char) (isw : Bool) (run : List Char),
    textMarkers (toSegsAux isw run cs) = [] := by
  intro cs
  induction cs with
  | nil =>
    intro isw run
    unfold toSegsAux
    rw [textMarkers_cons, segMarkers_mkSeg]
    rfl
  | cons c cs ih =>
    intro isw run
    unfold toSegsAux
    split_ifs with h
    · exact ih _ _
    · rw [textMarkers_cons, segMarkers_mkSeg, List.nil_append]
      exact ih _ _

theorem textMarkers_toSegs (l : List Char) : textMarkers (toSegs l) = [] := by
  cases l with
  | nil => rfl
  | cons c cs => exact textMarkers_toSegsAux cs (isWordChar c) [c]

theorem textMarkers_citify {m : Nat} {w : List Char} {n : Nat} {segs : List Seg}
    (h : m ∈ textMarkers (citify w n segs)) : m ∈ textMarkers segs ∨ m = n := by
  unfold textMarkers citify at h
  rw [List.map_map, List.mem_flatten] at h
  obtain ⟨ms, hms, hmem⟩ := h
  obtain ⟨seg, hseg, heq⟩ := List.mem_map.mp hms
  have hback : ∀ m2 ∈ segMarkers seg, m2 ∈ textMarkers segs := by
    intro m2 hm2
    unfold textMarkers
    rw [List.mem_flatten]
    exact ⟨segMarkers seg, List.mem_map_of_mem segMarkers hseg, hm2⟩
  cases seg with
  | sep s =>
    rw [← heq] at hmem
    simp [Function.comp, citifySeg, segMarkers] at hmem
  | word s ms2 =>
    rw [← heq] at hmem
    simp only [Function.comp, citifySeg] at hmem
    split_ifs at hmem with hcond
    · rw [show segMarkers (Seg.word s (ms2 ++ [n])) = ms2 ++ [n] from rfl] at hmem
      rcases List.mem_append.mp hmem with h2 | h2
      · exact Or.inl (hback m (by rw [show segMarkers (Seg.word s ms2) = ms2 from rfl]; exact h2))
      · rw [List.mem_singleton] at h2
        exact Or.inr h2
    · exact Or.inl (hback m hmem)

theorem step_cites_inv (shuffled : List Book) (st : LoopState) (w : List Char)
    (h : CitesInv st) : CitesInv (step shuffled st w) := by
  obtain ⟨hnd, hm⟩ := h
  rcases step_cases shuffled st w with ⟨-, hs⟩ | ⟨-, -, hs⟩ | ⟨-, -, -, hs⟩ |
    ⟨b2, -, -, -, hs⟩
  · rw [hs]; exact ⟨hnd, hm⟩
  · rw [hs]; exact ⟨hnd, hm⟩
  · rw [hs]; exact ⟨hnd, hm⟩
  · rw [hs]
    unfold CitesInv
    dsimp only
    by_cases hc : st.cites.contains b2.filename = true
    · rw [if_pos hc]
      have hmemC : b2.filename ∈ st.cites := List.mem_of_elem_eq_true hc
      refine ⟨hnd, ?_⟩
      intro m hmem
      rcases textMarkers_citify hmem with h2 | h2
      · exact hm m h2
      · subst h2
        have hidx := List.indexOf_lt_length.mpr hmemC
        omega
    · rw [if_neg hc]
      have hnotmem : b2.filename ∉ st.cites := fun hmem => hc (List.elem_eq_true_of_mem hmem)
      have hmemC : b2.filename ∈ st.cites ++ [b2.filename] :=
        List.mem_append_right _ (List.mem_singleton.mpr rfl)
      refine ⟨?_, ?_⟩
      · rw [List.nodup_append]
        exact ⟨hnd, List.nodup_singleton _, by
          intro a ha hb
          rw [List.mem_singleton] at hb
          subst hb
          exact hnotmem ha⟩
      · intro m hmem
        rcases textMarkers_citify hmem with h2 | h2
        · have := hm m h2
          rw [List.length_append, List.length_singleton]
          omega
        · subst h2
          have hidx := List.indexOf_lt_length.mpr hmemC
          omega

theorem runLoopFrom_cites_inv (sh : Nat → List Book) :
    ∀ (ws : List (List Char)) (i : Nat) (st : LoopState),
      CitesInv st → CitesInv (runLoopFrom sh i ws st) := by
  intro ws
  induction ws with
  | nil =>
    intro i st h
    exact h
  | cons w ws ih =>
    intro i st h
    rw [runLoopFrom_cons]
    exact ih (i + 1) _ (step_cites_inv (sh i) st w h)

/-- C2: after every iteration of the per-word annotation loop, the citation
list contains no duplicate filenames, it only ever grows at the end
(insertion-ordered by first discovery, so the k-th appended filename keeps
citation number k forever), and every citation number inserted so far lies
in the dense range 1..length of the list. -/
theorem claim2_citation_list_invariant (sh : Nat → List Book) (ws : List (List Char))
    (text : List Char) (k : Nat) :
    (runLoop sh (ws.take k) (initState text)).cites.Nodup ∧
    (∃ t, (runLoop sh (ws.take k) (initState text)).cites ++ t =
      (runLoop sh (ws.take (k + 1)) (initState text)).cites) ∧
    (∀ m ∈ textMarkers (runLoop sh (ws.take k) (initState text)).text,
      1 ≤ m ∧ m ≤ (runLoop sh (ws.take k) (initState text)).cites.length) := by
  have hinit : CitesInv (initState text) := by
    constructor
    · exact List.nodup_nil
    · intro m hm
      rw [show (initState text).text = toSegs text from rfl, textMarkers_toSegs] at hm
      exact absurd hm (List.not_mem_nil m)
  have hinv : CitesInv (runLoop sh (ws.take k) (initState text)) :=
    runLoopFrom_cites_inv sh (ws.take k) 0 (initState text) hinit
  refine ⟨hinv.1, ?_, hinv.2⟩
  rw [List.take_succ, runLoop, runLoop, runLoopFrom_append]
  obtain ⟨t, ht⟩ := runLoopFrom_cites_extend sh ws[k]?.toList (0 + (ws.take k).length)
    (runLoopFrom sh 0 (ws.take k) (initState text))
  exact ⟨t, ht.symm⟩

end Citifier

namespace Citifier

/-! Claim C9: marker/bibliography alignment. -/

theorem step_marker_resolves (books : List Book) (shuffled : List Book) (st : LoopState)
    (w : List Char) (hsub : ∀ b ∈ shuffled, b ∈ books) (h : MarkerResolves books st) :
    MarkerResolves books (step shuffled st w) := by
  have hmono : ∀ (st2 : LoopState), st.cites = st2.cites ∨
      (∃ t, st2.cites = st.cites ++ t) → True := fun _ _ => trivial
  rcases step_cases shuffled st w with ⟨-, hs⟩ | ⟨-, -, hs⟩ | ⟨-, -, -, hs⟩ |
    ⟨b2, -, -, h3, hs⟩
  · rw [hs]; exact h
  · rw [hs]; exact h
  · rw [hs]
    unfold MarkerResolves at h ⊢
    dsimp only
    intro m hm
    obtain ⟨i, b, hmi, hci, hbb, w2, hw2, hd⟩ := h m hm
    exact ⟨i, b, hmi, hci, hbb, w2, hw2, List.mem_append_left _ hd⟩
  · rw [hs]
    unfold MarkerResolves at h ⊢
    dsimp only
    intro m hm
    have hmemC : b2.filename ∈
        (if st.cites.contains b2.filename = true then st.cites
          else st.cites ++ [b2.filename]) := by
      split_ifs with hc
      · exact List.mem_of_elem_eq_true hc
      · exact List.mem_append_right _ (List.mem_singleton.mpr rfl)
    have hext : ∃ t, (if st.cites.contains b2.filename = true then st.cites
        else st.cites ++ [b2.filename]) = st.cites ++ t := by
      split_ifs with hc
      · exact ⟨[], by rw [List.append_nil]⟩
      · exact ⟨[b2.filename], rfl⟩
    rcases textMarkers_citify hm with h2 | h2
    · obtain ⟨i, b, hmi, hci, hbb, w2, hw2, hd⟩ := h m h2
      refine ⟨i, b, hmi, ?_, hbb, w2, hw2, List.mem_append_left _ hd⟩
      obtain ⟨t, ht⟩ := hext
      have hj : i < st.cites.length := by
        by_contra hge
        rw [List.getElem?_eq_none (by omega)] at hci
        exact Option.noConfusion hci
      rw [ht, List.getElem?_append_left hj]
      exact hci
    · subst h2
      refine ⟨(if st.cites.contains b2.filename = true then st.cites
          else st.cites ++ [b2.filename]).indexOf b2.filename, b2, rfl,
        getElem?_indexOf_self hmemC, hsub b2 (List.mem_of_find?_eq_some h3), w, ?_, ?_⟩
      · have hp := List.find?_some (show List.find?
          (fun bb => bb.set.contains (pyLower w)) shuffled = some b2 from h3)
        exact List.mem_of_elem_eq_true hp
      · exact List.mem_append_right _ (List.mem_singleton.mpr rfl)

theorem runLoopFrom_marker_resolves (books : List Book) (sh : Nat → List Book)
    (hsh : ∀ i, (sh i).Perm books) :
    ∀ (ws : List (List Char)) (i : Nat) (st : LoopState),
      MarkerResolves books st → MarkerResolves books (runLoopFrom sh i ws st) := by
  intro ws
  induction ws with
  | nil =>
    intro i st h
    exact h
  | cons w ws ih =>
    intro i st h
    rw [runLoopFrom_cons]
    exact ih (i + 1) _ (step_marker_resolves books (sh i) st w
      (fun b hb => (hsh i).mem_iff.mp hb) h)

/-- C9: the i-th entry of the rendered reference list carries the visible
number i+1, and every citation number m inserted into the text resolves
through the citation list: cites[m-1] is the filename of a corpus book whose
token set contains the (lowercased) word the marker was inserted for; hence
every in-text citation number resolves to the bibliography entry of the
document that contained the word. -/
theorem claim9_marker_alignment (books : List Book) (sh : Nat → List Book)
    (ws : List (List Char)) (text : List Char) (md : String → Option MetaRec)
    (fns : List String) (hsh : ∀ i, (sh i).Perm books) :
    (∀ (i : Nat) (id : String), fns[i]? = some id →
      ∃ t, (make_cites fns md).1[i]? =
        some ("<r>" ++ natStr (i + 1) ++ "</r> " ++ t)) ∧
    MarkerResolves books (runLoop sh ws (initState text)) := by
  constructor
  · intro i id hid
    rw [make_cites, make_cites_from_getElem md 0 i fns, hid]
    simp only [Option.map, Nat.zero_add]
    exact ⟨_, rfl⟩
  · apply runLoopFrom_marker_resolves books sh hsh ws 0 (initState text)
    intro m hm
    rw [show (initState text).text = toSegs text from rfl, textMarkers_toSegs] at hm
    exact absurd hm (List.not_mem_nil m)

/-- Witness for C9 at a concrete corpus, word list and metadata store. -/
theorem claim9_witness :
    ∃ t, (make_cites ["b1.txt"] (fun _ => none)).1[0]? =
      some ("<r>" ++ natStr 1 ++ "</r> " ++ t) :=
  (claim9_marker_alignment [mkBook "b1.txt" [97, 98]] (fun _ => [mkBook "b1.txt" [97, 98]])
    ["ab".data] "ab".data (fun _ => none) ["b1.txt"]
    (fun _ => List.Perm.refl _)).1 0 "b1.txt" rfl

end Citifier

namespace Citifier

/-! Claim C1: per-word annotation correctness. -/

theorem takeDigits_append_not (ds : List Char) (hds : ∀ c ∈ ds, isDigitChar c = true)
    {c : Char} (hc : isDigitChar c = false) (t : List Char) :
    takeDigits (ds ++ c :: t) = (ds, c :: t) := by
  induction ds with
  | nil =>
    rw [List.nil_append]
    unfold takeDigits
    rw [if_neg (by simp [hc])]
  | cons d ds ih =>
    have hd := hds d (List.mem_cons_self d ds)
    have ih2 := ih fun x hx => hds x (List.mem_cons_of_mem d hx)
    rw [List.cons_append]
    unfold takeDigits
    rw [if_pos hd, ih2]

theorem expectFER_eq_some {l r : List Char} :
    expectFER l = some r ↔ l = 'f' :: 'e' :: 'r' :: r := by
  constructor
  · intro h
    rcases l with _ | ⟨c1, _ | ⟨c2, _ | ⟨c3, rest⟩⟩⟩
    · simp [expectFER] at h
    · simp [expectFER] at h
    · simp [expectFER] at h
    · simp only [expectFER] at h
      split_ifs at h with hc
      obtain ⟨h1, h2, h3⟩ := hc
      subst h1; subst h2; subst h3
      rw [Option.some.injEq] at h
      rw [h]
  · intro h
    subst h
    simp [expectFER]

theorem pyLower_REF : pyLower ['R', 'E', 'F'] = ['r', 'e', 'f'] := by decide

theorem pyLower_renderMarker (n : Nat) :
    pyLower (renderMarker n) = ['r', 'e', 'f'] ++ (natDigits n ++ ['r', 'e', 'f']) := by
  have h1 : renderMarker n = ['R', 'E', 'F'] ++ (natDigits n ++ ['R', 'E', 'F']) := rfl
  rw [h1, pyLower_append, pyLower_append, pyLower_REF,
    pyLower_digits (natDigits_digits n)]

theorem endsWithSentinel_true_of (w ds rest : List Char) (hne : ds ≠ [])
    (hds : ∀ c ∈ ds, isDigitChar c = true)
    (hw : w.reverse = 'f' :: 'e' :: 'r' :: (ds ++ 'f' :: 'e' :: 'r' :: rest)) :
    endsWithSentinel w = true := by
  have h1 : expectFER w.reverse = some (ds ++ 'f' :: 'e' :: 'r' :: rest) := by
    rw [hw]
    exact expectFER_eq_some.mpr rfl
  have htd : takeDigits (ds ++ 'f' :: 'e' :: 'r' :: rest) = (ds, 'f' :: 'e' :: 'r' :: rest) :=
    takeDigits_append_not ds hds (by decide) _
  have hemp : ds.isEmpty = false := by
    cases ds with
    | nil => exact absurd rfl hne
    | cons d t => rfl
  have h2 : expectFER ('f' :: 'e' :: 'r' :: rest) = some rest := expectFER_eq_some.mpr rfl
  simp [endsWithSentinel, h1, htd, hemp, h2]

theorem endsWithSentinel_marked (s : List Char) (ms : List Nat) (n : Nat) :
    endsWithSentinel (pyLower (renderSeg (Seg.word s (ms ++ [n])))) = true := by
  have hrender : renderSeg (Seg.word s (ms ++ [n])) =
      (s ++ (ms.map renderMarker).flatten) ++ renderMarker n := by
    show s ++ (((ms ++ [n]).map renderMarker).flatten) = _
    rw [List.map_append, List.flatten_append]
    simp [List.append_assoc]
  rw [hrender, pyLower_append, pyLower_renderMarker]
  apply endsWithSentinel_true_of _ ((natDigits n).reverse)
    (pyLower (s ++ (ms.map renderMarker).flatten)).reverse
    (by simp [natDigits_ne_nil n])
    (fun c hc => natDigits_digits n c (List.mem_reverse.mp hc))
  simp [List.reverse_append]

theorem renderSeg_plain (s : List Char) : renderSeg (Seg.word s []) = s := by
  show s ++ (([] : List Nat).map renderMarker).flatten = s
  simp

theorem citifySeg_plain_eq {w s : List Char} (n : Nat) (h : pyLower s = pyLower w) :
    citifySeg w n (Seg.word s []) = Seg.word s [n] := by
  simp only [citifySeg]
  rw [renderSeg_plain, if_pos h]
  rfl

theorem citifySeg_plain_ne {w s : List Char} (n : Nat) (h : pyLower s ≠ pyLower w) :
    citifySeg w n (Seg.word s []) = Seg.word s [] := by
  simp only [citifySeg]
  rw [renderSeg_plain, if_neg h]

theorem citifySeg_marked_stable {w s : List Char} {ms : List Nat} (n : Nat) (hms : ms ≠ [])
    (hw : endsWithSentinel (pyLower w) = false) :
    citifySeg w n (Seg.word s ms) = Seg.word s ms := by
  have hcond : ¬(pyLower (renderSeg (Seg.word s ms)) = pyLower w) := by
    intro heq
    rcases ms.eq_nil_or_concat with h | ⟨ms2, m, hm⟩
    · exact hms h
    · rw [List.concat_eq_append] at hm
      subst hm
      rw [← heq, endsWithSentinel_marked] at hw
      exact Bool.noConfusion hw
  simp only [citifySeg]
  rw [if_neg hcond]

theorem citify_getElem (w : List Char) (n : Nat) (segs : List Seg) (j : Nat) :
    (citify w n segs)[j]? = (segs[j]?).map (citifySeg w n) := by
  unfold citify
  simp

theorem runLoopFrom_plain_stable (sh : Nat → List Book) (W : List Char) :
    ∀ (ws : List (List Char)) (i : Nat) (st : LoopState) (j : Nat) (s : List Char),
      (∀ w ∈ ws, pyLower w ≠ W) → pyLower s = W →
      st.text[j]? = some (Seg.word s []) →
      (runLoopFrom sh i ws st).text[j]? = some (Seg.word s []) := by
  intro ws
  induction ws with
  | nil =>
    intro i st j s _ _ h
    exact h
  | cons w ws ih =>
    intro i st j s hne hls hj
    rw [runLoopFrom_cons]
    apply ih (i + 1) _ j s (fun x hx => hne x (List.mem_cons_of_mem w hx)) hls
    rcases step_cases (sh i) st w with ⟨-, hs⟩ | ⟨-, -, hs⟩ | ⟨-, -, -, hs⟩ |
      ⟨b2, -, -, -, hs⟩
    · rw [hs]; exact hj
    · rw [hs]; exact hj
    · rw [hs]; exact hj
    · rw [hs]
      show (citify w _ st.text)[j]? = _
      rw [citify_getElem, hj]
      simp only [Option.map]
      rw [citifySeg_plain_ne _ (by
        rw [hls]
        exact fun hh => hne w (List.mem_cons_self w ws) hh.symm)]

theorem runLoopFrom_marked_stable (sh : Nat → List Book) :
    ∀ (ws : List (List Char)) (i : Nat) (st : LoopState) (j : Nat) (s : List Char)
      (ms : List Nat), ms ≠ [] → (∀ w ∈ ws, endsWithSentinel (pyLower w) = false) →
      st.text[j]? = some (Seg.word s ms) →
      (runLoopFrom sh i ws st).text[j]? = some (Seg.word s ms) := by
  intro ws
  induction ws with
  | nil =>
    intro i st j s ms _ _ h
    exact h
  | cons w ws ih =>
    intro i st j s ms hms hsent hj
    rw [runLoopFrom_cons]
    apply ih (i + 1) _ j s ms hms (fun x hx => hsent x (List.mem_cons_of_mem w hx))
    rcases step_cases (sh i) st w with ⟨-, hs⟩ | ⟨-, -, hs⟩ | ⟨-, -, -, hs⟩ |
      ⟨b2, -, -, -, hs⟩
    · rw [hs]; exact hj
    · rw [hs]; exact hj
    · rw [hs]; exact hj
    · rw [hs]
      show (citify w _ st.text)[j]? = _
      rw [citify_getElem, hj]
      simp only [Option.map]
      rw [citifySeg_marked_stable _ hms (hsent w (List.mem_cons_self w ws))]

end Citifier

namespace Citifier

/-- C1 amended: in the annotation loop over a duplicate-free lowercase word
list, provided no word ends with a lowercase sentinel-shaped suffix
ref<digits>ref (which could collide with an already marked run under the
case-insensitive regex), every word W without '*' is either left with all
its occurrences unmodified — exactly when no corpus book contains W — or
all its occurrences carry exactly one citation number i+1 such that the
citation list holds at index i the filename of a corpus book whose token
set contains W. -/
theorem claim1_amended (books : List Book) (sh : Nat → List Book) (ws : List (List Char))
    (text : List Char) (W : List Char) (hnd : ws.Nodup)
    (hlow : ∀ w ∈ ws, pyLower w = w) (hsent : ∀ w ∈ ws, endsWithSentinel w = false)
    (hsh : ∀ i, (sh i).Perm books) (hW : W ∈ ws) (hstar : W.contains '*' = false) :
    ClaimOneProp books (toSegs text) (runLoop sh ws (initState text)) W := by
  obtain ⟨ws1, ws2, rfl⟩ := List.append_of_mem hW
  have hnd1 : ws1.Nodup := (List.nodup_append.mp hnd).1
  have hndW2 : (W :: ws2).Nodup := (List.nodup_append.mp hnd).2.1
  have hdisj : ws1.Disjoint (W :: ws2) := (List.nodup_append.mp hnd).2.2
  have hWnotIn1 : W ∉ ws1 := fun h => hdisj h (List.mem_cons_self W ws2)
  have hWnotIn2 : W ∉ ws2 := (List.nodup_cons.mp hndW2).1
  have hlowW : pyLower W = W := hlow W hW
  have hlow1 : ∀ w ∈ ws1, pyLower w = w := fun w hw => hlow w (List.mem_append_left _ hw)
  have hlow2 : ∀ w ∈ ws2, pyLower w = w :=
    fun w hw => hlow w (List.mem_append_right _ (List.mem_cons_of_mem W hw))
  have hne1 : ∀ w ∈ ws1, pyLower w ≠ W := by
    intro w hw heq
    rw [hlow1 w hw] at heq
    subst heq
    exact hWnotIn1 hw
  have hne2 : ∀ w ∈ ws2, pyLower w ≠ W := by
    intro w hw heq
    rw [hlow2 w hw] at heq
    subst heq
    exact hWnotIn2 hw
  have hsent2 : ∀ w ∈ ws2, endsWithSentinel (pyLower w) = false := by
    intro w hw
    rw [hlow2 w hw]
    exact hsent w (List.mem_append_right _ (List.mem_cons_of_mem W hw))
  have hrun : runLoop sh (ws1 ++ W :: ws2) (initState text) =
      runLoopFrom sh (ws1.length + 1) ws2
        (step (sh ws1.length) (runLoopFrom sh 0 ws1 (initState text)) W) := by
    rw [runLoop, runLoopFrom_append, Nat.zero_add, runLoopFrom_cons]
  have hdone1 : (runLoopFrom sh 0 ws1 (initState text)).done =
      ws1.filter (fun w => !(w.contains '*')) := by
    have h := runLoopFrom_done_charact sh ws1 0 (initState text) hnd1 hlow1
      (fun w _ hmem => List.not_mem_nil w hmem)
    rw [h]
    rfl
  have hcontW : (runLoopFrom sh 0 ws1 (initState text)).done.contains (pyLower W) = false := by
    rw [hlowW, hdone1]
    cases hh : (ws1.filter (fun w => !(w.contains '*'))).contains W
    · rfl
    · exact absurd (List.mem_of_mem_filter (List.mem_of_elem_eq_true hh)) hWnotIn1
  have hplain1 : ∀ (j : Nat) (s : List Char), (toSegs text)[j]? = some (Seg.word s []) →
      pyLower s = W → (runLoopFrom sh 0 ws1 (initState text)).text[j]? =
        some (Seg.word s []) := by
    intro j s hj hls
    exact runLoopFrom_plain_stable sh W ws1 0 (initState text) j s hne1 hls hj
  rcases step_cases (sh ws1.length) (runLoopFrom sh 0 ws1 (initState text)) W with
    ⟨hc, -⟩ | ⟨-, hc, -⟩ | ⟨-, -, hscan, hs⟩ | ⟨b2, -, -, hscan, hs⟩
  · rw [hcontW] at hc
    exact Bool.noConfusion hc
  · rw [hstar] at hc
    exact Bool.noConfusion hc
  · left
    constructor
    · intro b hb hmem
      have hbin : b ∈ sh ws1.length := (hsh ws1.length).mem_iff.mpr hb
      have hscan2 : List.find? (fun bb => bb.set.contains (pyLower W)) (sh ws1.length) =
          none := hscan
      have hnone := List.find?_eq_none.mp hscan2 b hbin
      rw [hlowW] at hnone
      exact hnone (List.elem_eq_true_of_mem hmem)
    · intro j s hj hls
      rw [hrun]
      apply runLoopFrom_plain_stable sh W ws2 _ _ j s hne2 hls
      rw [hs]
      exact hplain1 j s hj hls
  · right
    set C := (if (runLoopFrom sh 0 ws1 (initState text)).cites.contains b2.filename = true
        then (runLoopFrom sh 0 ws1 (initState text)).cites
        else (runLoopFrom sh 0 ws1 (initState text)).cites ++ [b2.filename]) with hC
    have hmemC : b2.filename ∈ C := by
      rw [hC]
      split_ifs with hcc
      · exact List.mem_of_elem_eq_true hcc
      · exact List.mem_append_right _ (List.mem_singleton.mpr rfl)
    refine ⟨C.indexOf b2.filename + 1, C.indexOf b2.filename, b2, ?_, rfl, ?_, ?_, ?_⟩
    · rw [hrun]
      apply runLoopFrom_cites_getElem
      rw [hs]
      exact getElem?_indexOf_self hmemC
    · exact (hsh ws1.length).mem_iff.mp (List.mem_of_find?_eq_some hscan)
    · have hscan2 : List.find? (fun bb => bb.set.contains (pyLower W)) (sh ws1.length) =
          some b2 := hscan
      have hp := List.find?_some hscan2
      rw [hlowW] at hp
      exact List.mem_of_elem_eq_true hp
    · intro j s hj hls
      rw [hrun]
      apply runLoopFrom_marked_stable sh ws2 _ _ j s _ (by simp) hsent2
      rw [hs]
      show (citify W _ (runLoopFrom sh 0 ws1 (initState text)).text)[j]? = _
      rw [citify_getElem, hplain1 j s hj hls]
      simp only [Option.map]
      rw [citifySeg_plain_eq _ (by rw [hls, hlowW])]

end Citifier

namespace Citifier

/-- Witness for C1 amended at a concrete two-word primary text and a
one-book corpus. -/
theorem claim1_witness :
    ClaimOneProp [mkBook "b1.txt" [97, 98]] (toSegs "ab cd".data)
      (runLoop (fun _ => [mkBook "b1.txt" [97, 98]]) ["ab".data, "cd".data]
        (initState "ab cd".data)) "ab".data := by
  apply claim1_amended
  · decide
  · decide
  · decide
  · intro i
    exact List.Perm.refl _
  · decide
  · decide

/-- C1 counterexample: the claim as stated fails on the code.  With the
primary text "ab abref1ref" (its token set is a possible iteration order
["ab", "abref1ref"]), a corpus book b1 containing "ab" and a book b2
containing "abref1ref", annotating "ab" first rewrites it to "abREF1REF";
the later case-insensitive whole-word substitution for "abref1ref" then
also matches that marked run, so the word "ab" ends up carrying the two
citation numbers 1 and 2 instead of exactly one. -/
theorem claim1_counterexample :
    (∀ w ∈ (["ab".data, "abref1ref".data] : List (List Char)), pyLower w = w) ∧
    (["ab".data, "abref1ref".data] : List (List Char)).Perm
      (mkBook "moby.txt" [97, 98, 32, 97, 98, 114, 101, 102, 49, 114, 101, 102]).set ∧
    ¬ ClaimOneProp [mkBook "b1.txt" [97, 98],
        mkBook "b2.txt" [97, 98, 114, 101, 102, 49, 114, 101, 102]]
      (toSegs "ab abref1ref".data)
      (runLoop (fun _ => [mkBook "b1.txt" [97, 98],
          mkBook "b2.txt" [97, 98, 114, 101, 102, 49, 114, 101, 102]])
        ["ab".data, "abref1ref".data] (initState "ab abref1ref".data))
      "ab".data := by
  refine ⟨by decide, by decide, ?_⟩
  intro h
  cases h with
  | inl h =>
    exact absurd (show ("ab".data : List Char) ∈ (mkBook "b1.txt" [97, 98]).set by decide)
      (h.1 (mkBook "b1.txt" [97, 98]) (List.mem_cons_self _ _))
  | inr h =>
    obtain ⟨n, i, b, -, -, -, -, hall⟩ := h
    have h0 := hall 0 "ab".data (by decide) (by decide)
    have hval : (runLoop (fun _ => [mkBook "b1.txt" [97, 98],
        mkBook "b2.txt" [97, 98, 114, 101, 102, 49, 114, 101, 102]])
        ["ab".data, "abref1ref".data] (initState "ab abref1ref".data)).text[0]? =
        some (Seg.word "ab".data [1, 2]) := by decide
    rw [hval] at h0
    simp at h0

end Citifier

namespace Citifier

/-- Witness for C2 at a concrete iteration. -/
theorem claim2_witness :
    (runLoop (fun _ => ([] : List Book)) ((["ab".data] : List (List Char)).take 1)
      (initState "ab".data)).cites.Nodup :=
  (claim2_citation_list_invariant (fun _ => []) ["ab".data] "ab".data 1).1

end Citifier
